import Mathlib

/-!
Verification development for the AiBot chat client (src/src/App.jsx).

The session store and conversation logic of App.jsx are embedded as
executable Lean definitions.  JavaScript strings are modelled as Lean
`String` values; the character-level helpers below (`trimList`,
`charListLe`, `splitStar`, `splitSp`) model the JavaScript string
operations `trim`, `localeCompare` and `split` used by the source, so
that every definition evaluates by kernel reduction.
-/

/-- Text of a message: user messages carry one string, bot messages an
ordered sequence of bullet lines (App.jsx stores `botLines` arrays). -/
inductive MsgText where
  | one (s : String)
  | many (ls : List String)
deriving DecidableEq

/-- A chat message as stored in a session's `messages` array. -/
structure Message where
  sender : String
  text : MsgText
  timestamp : String
deriving DecidableEq

/-- A chat session: `{ id, name, pinned, messages }` from App.jsx. -/
structure Session where
  id : String
  name : String
  pinned : Bool
  messages : List Message
deriving DecidableEq

/-- The in-memory session list (`chatHistory` state) together with the
list currently persisted under the `allChats` key of the durable store
(deserialized form of `localStorage.getItem('allChats')`). -/
structure StoreState where
  sessions : List Session
  store : List Session
deriving DecidableEq

/-- JS `Array.prototype.trim` whitespace test, on characters. -/
def isWs (c : Char) : Bool := c.isWhitespace

/-- JS `String.prototype.trim` on a character list: drop leading and
trailing whitespace. -/
def trimList (s : List Char) : List Char :=
  ((s.dropWhile isWs).reverse.dropWhile isWs).reverse

/-- JS `String.prototype.trim` on strings. -/
def strTrim (s : String) : String := String.mk (trimList s.data)

/-- Code-unit comparison of character lists; `charListLe a b` holds when
`a` is lexicographically at most `b`.  Models the order that
`localeCompare` induces on the digit-string ids of App.jsx. -/
def charListLe : List Char → List Char → Bool
  | [], _ => true
  | _ :: _, [] => false
  | a :: as, b :: bs =>
    if a.toNat < b.toNat then true
    else if b.toNat < a.toNat then false
    else charListLe as bs

/-- String comparison used to model `a.localeCompare(b) <= 0`. -/
def strLe (a b : String) : Bool := charListLe a.data b.data

/-- The comparator of `togglePinChat` and `importChats` in App.jsx,
read as a boolean "a may come before b":
`(a, b) => { if (a.pinned === b.pinned) return b.id.localeCompare(a.id);
return b.pinned - a.pinned; }` returns a non-positive number exactly
when `sessionLe a b` is true. -/
def sessionLe (a b : Session) : Bool :=
  if a.pinned == b.pinned then strLe b.id a.id else a.pinned

/-- Models `updatedChats.sort(comparator)`: JS sort is a stable sort by the
comparator, modelled by the stable `List.mergeSort`. -/
def sortSessions (l : List Session) : List Session :=
  l.mergeSort sessionLe

/-- Models `createNewSession` of App.jsx: new id, fresh unpinned session named
"New Chat" put at the front, then `localStorage.setItem` and
`setChatHistory` with the same list. -/
def createNewSession (id : String) (st : StoreState) : StoreState :=
  let l := { id := id, name := "New Chat", pinned := false, messages := [] } :: st.sessions
  { sessions := l, store := l }

/-- Models `deleteSession` of App.jsx: filter the session out, persist and set
the same filtered list (active-session fallback is UI state only). -/
def deleteSession (i : String) (st : StoreState) : StoreState :=
  let l := st.sessions.filter (fun c => !(c.id == i))
  { sessions := l, store := l }

/-- Models `togglePinChat` of App.jsx: flip the pinned flag of the matching
session, sort with the pinned-first/descending-id comparator, persist
and set the sorted list. -/
def togglePinChat (i : String) (st : StoreState) : StoreState :=
  let l := sortSessions (st.sessions.map
    (fun c => if c.id == i then { c with pinned := !c.pinned } else c))
  { sessions := l, store := l }

/-- Models `saveRename` of App.jsx: `if (!renameText.trim()) return;` rejects
empty/whitespace names with no state change and no write; otherwise the
matching session's name becomes the trimmed text and the list is
persisted. -/
def saveRename (i t : String) (st : StoreState) : StoreState :=
  if strTrim t = "" then st
  else
    let l := st.sessions.map
      (fun c => if c.id == i then { c with name := strTrim t } else c)
    { sessions := l, store := l }

/-- The save effect of App.jsx (lines 31-38) as it completes after a
message append: the current session's messages are replaced by the
extended array, the full list is written to the store and set. -/
def appendMessage (i : String) (m : Message) (st : StoreState) : StoreState :=
  let l := st.sessions.map
    (fun c => if c.id == i then { c with messages := c.messages ++ [m] } else c)
  { sessions := l, store := l }

/-- JS `split(' ')` on a character list (single-space separator). -/
def consHead (c : Char) : List (List Char) → List (List Char)
  | [] => [[c]]
  | h :: t => (c :: h) :: t

/-- JS `String.prototype.split(' ')`: cut at every space character. -/
def splitSp : List Char → List (List Char)
  | [] => [[]]
  | c :: rest => if c = ' ' then [] :: splitSp rest else consHead c (splitSp rest)

/-- Models `question.trim().split(' ').slice(0, 6).join(' ')` from
`askQuestion` in App.jsx. -/
def shortName (q : String) : String :=
  String.mk (List.intercalate [' '] ((splitSp (trimList q.data)).take 6))

/-- The rename-on-send step of `askQuestion` (lines 99-107): if the
current session exists and its name is '' or 'New Chat', every session
with that id gets the derived short name, and the list is persisted;
otherwise nothing happens. -/
def autoNameOnSend (i q : String) (st : StoreState) : StoreState :=
  match st.sessions.find? (fun s => s.id == i) with
  | some c =>
    if c.name = "" ∨ c.name = "New Chat" then
      let l := st.sessions.map
        (fun s => if s.id == i then { s with name := shortName q } else s)
      { sessions := l, store := l }
    else st
  | none => st

/-- The merge loop of `importChats`: starting from the existing list,
push each incoming session unless some session already in the merged
list has the same id (`merged.find(c => c.id === impChat.id)`). -/
def mergeImport (hist incoming : List Session) : List Session :=
  incoming.foldl
    (fun merged imp =>
      if merged.any (fun c => c.id == imp.id) then merged else merged ++ [imp])
    hist

/-- Parse result of the document handed to `importChats`.  The code
checks only `Array.isArray` at the top level and pushes array elements
verbatim; all claims about array contents concern well-formed documents,
so an array document is modelled by the session list it denotes, and
every non-array top-level value by `notArray`. -/
inductive ParsedDoc where
  | notArray
  | arr (sessions : List Session)

/-- Models `importChats` of App.jsx after `JSON.parse`: a non-array document
throws `Invalid format`, which the catch turns into the alert
`Failed to import chats: Invalid format` with no state change; an array
document is merged without duplicate ids, sorted with the
pinned-first/descending-id comparator, persisted and set. -/
def importChats (doc : ParsedDoc) (st : StoreState) : StoreState × Option String :=
  match doc with
  | .notArray => (st, some "Failed to import chats: Invalid format")
  | .arr incoming =>
    let l := sortSessions (mergeImport st.sessions incoming)
    ({ sessions := l, store := l }, none)

/-- One mutating operation on the session store. -/
inductive Op where
  | create (id : String)
  | remove (i : String)
  | togglePin (i : String)
  | rename (i : String) (t : String)
  | appendMsg (i : String) (m : Message)
  | autoName (i : String) (q : String)
  | importOp (d : ParsedDoc)

/-- Apply one mutating operation, as App.jsx implements it. -/
def applyOp (st : StoreState) : Op → StoreState
  | .create id => createNewSession id st
  | .remove i => deleteSession i st
  | .togglePin i => togglePinChat i st
  | .rename i t => saveRename i t st
  | .appendMsg i m => appendMessage i m st
  | .autoName i q => autoNameOnSend i q st
  | .importOp d => (importChats d st).1

/-- Run a sequence of mutating operations. -/
def runOps (st : StoreState) (ops : List Op) : StoreState :=
  ops.foldl applyOp st

/-- JS `rawReply.split("* ")` on a character list: cut at each
occurrence of the two-character delimiter, scanning left to right. -/
def splitStar : List Char → List (List Char)
  | [] => [[]]
  | [c] => [[c]]
  | c1 :: c2 :: rest =>
    if c1 = '*' ∧ c2 = ' ' then [] :: splitStar rest
    else consHead c1 (splitStar (c2 :: rest))

/-- The bullet transform of `askQuestion` (lines 126-129):
`rawReply.split("* ").map(line => line.trim()).filter(line => line.length > 0)`. -/
def splitBullets (raw : String) : List String :=
  (((splitStar raw.data).map trimList).filter (fun l => decide (0 < l.length))).map String.mk

/-- A JSON value, the result of `response.json()`. -/
inductive JValue where
  | null
  | bool (b : Bool)
  | num (n : Int)
  | str (s : String)
  | arr (xs : List JValue)
  | obj (fields : List (String × JValue))

/-- Look a key up in the field list of a JSON object. -/
def jLookup (k : String) : List (String × JValue) → Option JValue
  | [] => none
  | (k', v) :: rest => if k' == k then some v else jLookup k rest

/-- JS optional property access `v?.k`: a value on objects that carry
the key, undefined (`none`) otherwise. -/
def jGet (v : JValue) (k : String) : Option JValue :=
  match v with
  | .obj fields => jLookup k fields
  | _ => none

/-- JS optional indexing `v?.[i]`: array element when present; on plain
objects the index is coerced to a string key; undefined otherwise. -/
def jIdx (v : JValue) (i : Nat) : Option JValue :=
  match v with
  | .arr xs => xs.get? i
  | .obj fields => jLookup (toString i) fields
  | _ => none

/-- The optional chain `data?.candidates?.[0]?.content?.parts?.[0]?.text`
from `askQuestion` (line 123). -/
def pathText (data : JValue) : Option JValue :=
  ((((jGet data "candidates").bind (fun v => jIdx v 0)).bind
      (fun v => jGet v "content")).bind
        (fun v => jGet v "parts")).bind
          (fun v => jIdx v 0) |>.bind (fun v => jGet v "text")

/-- JS truthiness of a JSON value. -/
def truthy : JValue → Bool
  | .null => false
  | .bool b => b
  | .num n => decide (n ≠ 0)
  | .str s => !(s == "")
  | .arr _ => true
  | .obj _ => true

/-- Models `data?.candidates?.[0]?.content?.parts?.[0]?.text || "No response"`:
the chained value when present and truthy, else the literal fallback. -/
def extractReply (data : JValue) : JValue :=
  match pathText data with
  | some v => if truthy v then v else JValue.str "No response"
  | none => JValue.str "No response"

/-- From a true `charListLe` comparison, either the heads are strictly
ordered or they agree and the tails compare. -/
theorem charListLe_cons_cases (x y : Char) (xs ys : List Char)
    (h : charListLe (x :: xs) (y :: ys) = true) :
    x.toNat < y.toNat ∨ (x.toNat = y.toNat ∧ charListLe xs ys = true) := by
  by_cases hxy : x.toNat < y.toNat
  · exact Or.inl hxy
  · rw [charListLe, if_neg hxy] at h
    by_cases hyx : y.toNat < x.toNat
    · rw [if_pos hyx] at h
      exact absurd h (by simp)
    · rw [if_neg hyx] at h
      exact Or.inr ⟨by omega, h⟩

/-- Transitivity of the character-list comparison. -/
theorem charListLe_trans (a b c : List Char) (h1 : charListLe a b = true)
    (h2 : charListLe b c = true) : charListLe a c = true := by
  induction a generalizing b c with
  | nil => rfl
  | cons x xs ih =>
    cases b with
    | nil => simp [charListLe] at h1
    | cons y ys =>
      cases c with
      | nil => simp [charListLe] at h2
      | cons z zs =>
        rcases charListLe_cons_cases x y xs ys h1 with h | ⟨e1, hxs⟩ <;>
          rcases charListLe_cons_cases y z ys zs h2 with h' | ⟨e2, hys⟩ <;>
          rw [charListLe]
        · rw [if_pos (by omega)]
        · rw [if_pos (by omega)]
        · rw [if_pos (by omega)]
        · rw [if_neg (by omega), if_neg (by omega)]
          exact ih ys zs hxs hys

/-- Totality of the character-list comparison. -/
theorem charListLe_total (a b : List Char) :
    (charListLe a b || charListLe b a) = true := by
  induction a generalizing b with
  | nil => rfl
  | cons x xs ih =>
    cases b with
    | nil => rfl
    | cons y ys =>
      simp only [charListLe]
      by_cases hxy : x.toNat < y.toNat
      · rw [if_pos hxy]
        rfl
      · by_cases hyx : y.toNat < x.toNat
        · rw [if_neg hxy, if_pos hyx, if_pos hyx]
          rfl
        · rw [if_neg hxy, if_neg hyx, if_neg hyx, if_neg hxy]
          exact ih ys

/-- Transitivity of the session comparator of App.jsx. -/
theorem sessionLe_trans (a b c : Session) (h1 : sessionLe a b = true)
    (h2 : sessionLe b c = true) : sessionLe a c = true := by
  unfold sessionLe strLe at h1 h2 ⊢
  cases ha : a.pinned <;> cases hb : b.pinned <;> cases hc : c.pinned <;>
    rw [ha, hb] at h1 <;> rw [hb, hc] at h2 <;>
    first
      | rfl
      | exact charListLe_trans _ _ _ h2 h1
      | exact Bool.noConfusion h1
      | exact Bool.noConfusion h2

/-- Totality of the session comparator of App.jsx. -/
theorem sessionLe_total (a b : Session) :
    (sessionLe a b || sessionLe b a) = true := by
  unfold sessionLe strLe
  cases ha : a.pinned <;> cases hb : b.pinned <;>
    first
      | rfl
      | exact charListLe_total _ _

/-- The sorted session list produced by the comparator is pairwise
ordered by it. -/
theorem pairwise_sortSessions (l : List Session) :
    (sortSessions l).Pairwise (fun a b => sessionLe a b = true) := by
  have := List.sorted_mergeSort
    (fun a b c => sessionLe_trans a b c) (fun a b => sessionLe_total a b) l
  simpa [sortSessions] using this

/-- Ordering stated by the spec for a pair of sessions appearing in this
order: a pinned session never follows an unpinned one, and among equal
pinned-state the ids are descending (later id at most the earlier id). -/
def claimOrd (a b : Session) : Prop :=
  (b.pinned = true → a.pinned = true) ∧ (a.pinned = b.pinned → strLe b.id a.id = true)

/-- The comparator order implies the spec's pairwise ordering. -/
theorem sessionLe_claimOrd {a b : Session} (h : sessionLe a b = true) :
    claimOrd a b := by
  unfold sessionLe at h
  by_cases hp : a.pinned = b.pinned
  · rw [if_pos (by simp [hp])] at h
    exact ⟨fun hb => by rw [hp, hb], fun _ => h⟩
  · rw [if_neg (by simp [hp])] at h
    exact ⟨fun _ => h, fun he => absurd he hp⟩

/-- C1: after togglePin(id), and likewise after a successful import, the
session list is pairwise ordered with every pinned session preceding
every unpinned one, and sessions of equal pinned-state in descending
order of id. -/
theorem togglePin_import_sorted :
    (∀ i st, ((togglePinChat i st).sessions).Pairwise claimOrd)
    ∧ (∀ st l, (((importChats (.arr l) st).1).sessions).Pairwise claimOrd) := by
  have key : ∀ l : List Session, (sortSessions l).Pairwise claimOrd := fun l =>
    (pairwise_sortSessions l).imp (fun h => sessionLe_claimOrd h)
  exact ⟨fun i st => key _, fun st l => key _⟩

/-- Each single operation of App.jsx either leaves the state alone or
writes one list to both the React state and the durable store, so it
preserves agreement of the two. -/
theorem applyOp_preserves (st : StoreState) (o : Op) (h : st.store = st.sessions) :
    (applyOp st o).store = (applyOp st o).sessions := by
  cases o with
  | create id => rfl
  | remove i => rfl
  | togglePin i => rfl
  | rename i t =>
    simp only [applyOp]
    unfold saveRename
    split
    · exact h
    · rfl
  | appendMsg i m => rfl
  | autoName i q =>
    simp only [applyOp]
    unfold autoNameOnSend
    split
    · split
      · rfl
      · exact h
    · exact h
  | importOp d =>
    cases d with
    | notArray => exact h
    | arr l => rfl

/-- C2: for every sequence of mutating operations starting from a state
whose persisted list agrees with the in-memory list, the persisted list
equals the in-memory session list after each operation completes. -/
theorem runOps_store_preserved (st : StoreState) (ops : List Op)
    (h : st.store = st.sessions) :
    (runOps st ops).store = (runOps st ops).sessions := by
  induction ops generalizing st with
  | nil => exact h
  | cons o rest ih => exact ih (applyOp st o) (applyOp_preserves st o h)

/-- An example session used by concrete witnesses. -/
def exSession : Session := { id := "1", name := "Old", pinned := false, messages := [] }

/-- An example store state whose persisted and in-memory lists agree. -/
def exState : StoreState := { sessions := [exSession], store := [exSession] }

/-- An example sequence of mutating operations exercising every
constructor of `Op`. -/
def exOps : List Op :=
  [Op.create "2", Op.create "3", Op.rename "3" "  x ", Op.togglePin "2",
   Op.appendMsg "2" { sender := "user", text := MsgText.one "hi", timestamp := "t" },
   Op.importOp (ParsedDoc.arr [exSession]), Op.remove "3",
   Op.importOp ParsedDoc.notArray, Op.autoName "2" "Hello there"]

/-- Witness for C2 at a concrete operation sequence. -/
theorem runOps_store_preserved_witness :
    (runOps { sessions := [], store := [] } exOps).store
      = (runOps { sessions := [], store := [] } exOps).sessions :=
  runOps_store_preserved { sessions := [], store := [] } exOps rfl

/-- C3: a document whose top-level parsed value is not an array makes
the import fail with the surfaced malformed-input alert and leaves both
the in-memory and the persisted session list unmodified. -/
theorem importChats_notArray_unchanged (st : StoreState) :
    importChats ParsedDoc.notArray st
      = (st, some "Failed to import chats: Invalid format") := rfl

/-- When every incoming id already occurs among the existing ids, the
merge loop pushes nothing. -/
theorem mergeImport_all_present (incoming hist : List Session)
    (h : ∀ s ∈ incoming, s.id ∈ hist.map Session.id) :
    mergeImport hist incoming = hist := by
  induction incoming with
  | nil => rfl
  | cons imp rest ih =>
    have hany : hist.any (fun c => c.id == imp.id) = true := by
      have hm := h imp (List.mem_cons_self imp rest)
      simp only [List.mem_map] at hm
      obtain ⟨c, hc, e⟩ := hm
      simp only [List.any_eq_true]
      exact ⟨c, hc, by simp [e]⟩
    show mergeImport
        (if hist.any (fun c => c.id == imp.id) then hist else hist ++ [imp]) rest = hist
    rw [hany, if_pos rfl]
    exact ih (fun s hs => h s (List.mem_cons_of_mem imp hs))

/-- C5: importing a well-formed document all of whose session ids are
already present leaves the session list unchanged as a multiset (each
session keeps its id, name, pinned flag and messages), the result being
exactly the pinned-then-descending-id re-sort of the existing list. -/
theorem importChats_existing_ids_perm (st : StoreState) (incoming : List Session)
    (h : ∀ s ∈ incoming, s.id ∈ st.sessions.map Session.id) :
    (importChats (.arr incoming) st).1.sessions = sortSessions st.sessions
    ∧ ((importChats (.arr incoming) st).1.sessions).Perm st.sessions := by
  have hm : mergeImport st.sessions incoming = st.sessions :=
    mergeImport_all_present incoming st.sessions h
  constructor
  · show sortSessions (mergeImport st.sessions incoming) = sortSessions st.sessions
    rw [hm]
  · show (sortSessions (mergeImport st.sessions incoming)).Perm st.sessions
    rw [hm]
    exact List.mergeSort_perm st.sessions sessionLe

/-- Witness for C5 at a concrete store and document. -/
theorem importChats_existing_ids_perm_witness :
    (importChats (ParsedDoc.arr [exSession]) exState).1.sessions
      = sortSessions exState.sessions :=
  (importChats_existing_ids_perm exState [exSession] (by decide)).1

/-- Removing one chosen element from a filter over a duplicate-free list
drops the filtered length by exactly one. -/
theorem filter_length_with_erased {α : Type} [DecidableEq α] (p : α → Bool) (x : α) :
    ∀ (L : List α), L.Nodup → x ∈ L → p x = true →
      (L.filter p).length = 1 + (L.filter (fun i => p i && !(i == x))).length := by
  intro L
  induction L with
  | nil =>
    intro _ hx
    exact absurd hx (List.not_mem_nil x)
  | cons y t ih =>
    intro hnd hx hpx
    rw [List.nodup_cons] at hnd
    by_cases hyx : y = x
    · subst hyx
      rw [List.filter_cons_of_pos hpx,
        List.filter_cons_of_neg (by simp [hpx])]
      have hcongr : t.filter (fun i => p i && !(i == y)) = t.filter p := by
        apply List.filter_congr
        intro a ha
        have hay : ¬ (a == y) = true := by
          simp only [beq_iff_eq]
          intro e
          exact hnd.1 (e ▸ ha)
        simp [hay]
      rw [hcongr]
      simp [Nat.add_comm]
    · have hx' : x ∈ t := by
        rcases List.mem_cons.mp hx with e | hm
        · exact absurd e.symm hyx
        · exact hm
      cases hpy : p y with
      | false =>
        rw [List.filter_cons_of_neg (by simp [hpy]),
          List.filter_cons_of_neg (by simp [hpy])]
        exact ih hnd.2 hx' hpx
      | true =>
        rw [List.filter_cons_of_pos hpy,
          List.filter_cons_of_pos (by simp [hpy, hyx])]
        simp only [List.length_cons]
        rw [ih hnd.2 hx' hpx]
        omega

/-- Pushing a fresh id onto the history accounts for exactly one more
distinct new id. -/
theorem dedup_filter_count_push (x : String) (rest histIds : List String)
    (hx : x ∉ histIds) :
    (((x :: rest).dedup).filter (fun i => decide (i ∉ histIds))).length
      = 1 + ((rest.dedup).filter (fun i => decide (i ∉ histIds ++ [x]))).length := by
  by_cases hxr : x ∈ rest
  · rw [List.dedup_cons_of_mem hxr]
    have hmem : x ∈ rest.dedup := List.mem_dedup.mpr hxr
    have hp : (fun i => decide (i ∉ histIds)) x = true := by simp [hx]
    rw [filter_length_with_erased (fun i => decide (i ∉ histIds)) x rest.dedup
      rest.nodup_dedup hmem hp]
    have hc2 : (rest.dedup).filter (fun i => decide (i ∉ histIds) && !(i == x))
        = (rest.dedup).filter (fun i => decide (i ∉ histIds ++ [x])) := by
      apply List.filter_congr
      intro a ha
      by_cases hax : a = x
      · subst hax
        simp [List.mem_append]
      · simp [List.mem_append, hax]
    rw [hc2]
  · rw [List.dedup_cons_of_not_mem hxr,
      List.filter_cons_of_pos (by simp [hx])]
    have hcongr : (rest.dedup).filter (fun i => decide (i ∉ histIds ++ [x]))
        = (rest.dedup).filter (fun i => decide (i ∉ histIds)) := by
      apply List.filter_congr
      intro a ha
      have hax : a ≠ x := fun e => hxr (e ▸ List.mem_dedup.mp ha)
      simp [List.mem_append, hax]
    rw [hcongr]
    simp [Nat.add_comm]

/-- Skipping an id that is already in the history leaves the count of
distinct new ids unchanged. -/
theorem dedup_filter_count_skip (x : String) (rest histIds : List String)
    (hx : x ∈ histIds) :
    (((x :: rest).dedup).filter (fun i => decide (i ∉ histIds))).length
      = ((rest.dedup).filter (fun i => decide (i ∉ histIds))).length := by
  by_cases hxr : x ∈ rest
  · rw [List.dedup_cons_of_mem hxr]
  · rw [List.dedup_cons_of_not_mem hxr,
      List.filter_cons_of_neg (by simp [hx])]

/-- Length of the merge loop's result: the existing count plus the
number of distinct incoming ids that are not already present. -/
theorem mergeImport_length (incoming : List Session) : ∀ hist : List Session,
    (mergeImport hist incoming).length
      = hist.length + (((incoming.map Session.id).dedup).filter
          (fun i => decide (i ∉ hist.map Session.id))).length := by
  induction incoming with
  | nil =>
    intro hist
    simp [mergeImport]
  | cons imp rest ih =>
    intro hist
    show (mergeImport
        (if hist.any (fun c => c.id == imp.id) then hist else hist ++ [imp]) rest).length = _
    by_cases hmem : imp.id ∈ hist.map Session.id
    · have hany : hist.any (fun c => c.id == imp.id) = true := by
        have hm := hmem
        simp only [List.mem_map] at hm
        obtain ⟨c, hc, e⟩ := hm
        simp only [List.any_eq_true]
        exact ⟨c, hc, by simp [e]⟩
      rw [hany, if_pos rfl, ih hist]
      congr 1
      simp only [List.map_cons]
      exact (dedup_filter_count_skip imp.id (rest.map Session.id)
        (hist.map Session.id) hmem).symm
    · have hany : hist.any (fun c => c.id == imp.id) = false := by
        rw [← Bool.not_eq_true, List.any_eq_true]
        intro hex
        obtain ⟨c, hc, e⟩ := hex
        apply hmem
        simp only [List.mem_map]
        exact ⟨c, hc, by simpa using e⟩
      rw [hany, if_neg (by simp), ih (hist ++ [imp])]
      simp only [List.length_append, List.length_cons, List.length_nil,
        List.map_append, List.map_cons, List.map_nil]
      rw [dedup_filter_count_push imp.id (rest.map Session.id)
        (hist.map Session.id) hmem]
      omega

/-- C4 (amended): importing a well-formed document increases the session
count by exactly the number of distinct incoming ids not already present
in the store; an incoming session whose id is already present in the
store, or repeats the id of an earlier incoming session, contributes
nothing. -/
theorem importChats_new_id_count (st : StoreState) (incoming : List Session) :
    (importChats (.arr incoming) st).1.sessions.length
      = st.sessions.length
        + (((incoming.map Session.id).dedup).filter
            (fun i => decide (i ∉ st.sessions.map Session.id))).length := by
  show (sortSessions (mergeImport st.sessions incoming)).length = _
  rw [sortSessions, List.length_mergeSort]
  exact mergeImport_length incoming st.sessions

/-- Counterexample to C4 as stated: a well-formed document holding two
sessions that share one fresh id has two sessions whose ids are not in
the (empty) store, yet the import adds only one session. -/
theorem importChats_dup_ids_counterexample :
    (([{ id := "9", name := "Dup", pinned := false, messages := [] },
       { id := "9", name := "Dup", pinned := false, messages := [] }] : List Session).filter
        (fun s => decide (s.id ∉ ([] : List Session).map Session.id))).length = 2
    ∧ (importChats
        (ParsedDoc.arr
          [{ id := "9", name := "Dup", pinned := false, messages := [] },
           { id := "9", name := "Dup", pinned := false, messages := [] }])
        { sessions := [], store := [] }).1.sessions.length = 1 := by
  constructor
  · decide
  · show (sortSessions (mergeImport []
      [{ id := "9", name := "Dup", pinned := false, messages := [] },
       { id := "9", name := "Dup", pinned := false, messages := [] }])).length = 1
    rw [sortSessions, List.length_mergeSort]
    decide

/-- A character list that does not contain the two-character delimiter
is returned whole by the splitter. -/
theorem splitStar_no_delim (l : List Char) (h : ¬ ("* ".toList <:+: l)) :
    splitStar l = [l] := by
  induction l with
  | nil => rfl
  | cons c l' ih =>
    cases l' with
    | nil => rfl
    | cons c2 rest =>
      by_cases hd : c = '*' ∧ c2 = ' '
      · exfalso
        apply h
        obtain ⟨e1, e2⟩ := hd
        subst e1
        subst e2
        have hsl : "* ".toList = ['*', ' '] := by decide
        exact ⟨[], rest, by simp [hsl]⟩
      · have h' : ¬ ("* ".toList <:+: (c2 :: rest)) := by
          intro hin
          obtain ⟨s, t, e⟩ := hin
          exact h ⟨c :: s, t, by rw [← e]; rfl⟩
        show (if c = '*' ∧ c2 = ' ' then [] :: splitStar rest
          else consHead c (splitStar (c2 :: rest))) = [c :: c2 :: rest]
        rw [if_neg hd, ih h']
        rfl

/-- C6 (amended): the bot reply transform splits on the delimiter, trims
each segment and drops empty segments; the canonical example yields its
two bullet lines, and a reply without the delimiter yields the
single-element sequence of its trimmed text when that is non-empty, and
the empty sequence when the reply is whitespace-only. -/
theorem splitBullets_spec (raw : String) (h : ¬ ("* ".toList <:+: raw.data)) :
    splitBullets "* First point* Second point" = ["First point", "Second point"]
    ∧ splitBullets raw = if strTrim raw = "" then [] else [strTrim raw] := by
  constructor
  · decide
  · unfold splitBullets
    rw [splitStar_no_delim raw.data h]
    by_cases ht : trimList raw.data = []
    · have h1 : strTrim raw = "" := by
        rw [strTrim, ht]
      rw [if_pos h1]
      simp [ht]
    · have h1 : strTrim raw ≠ "" := by
        rw [strTrim]
        intro e
        apply ht
        simpa using congrArg String.data e
      rw [if_neg h1]
      have hlen : (decide (0 < (trimList raw.data).length)) = true := by
        simp [List.length_pos, ht]
      simp [hlen, strTrim]

/-- Witness for C6 at the canonical example and at a plain reply. -/
theorem splitBullets_spec_witness :
    splitBullets "* First point* Second point" = ["First point", "Second point"]
    ∧ splitBullets "hi" = ["hi"] := by
  have h := splitBullets_spec "hi" (by decide)
  exact ⟨h.1, by rw [h.2]; decide⟩

/-- Counterexample to C6 as stated: the whitespace-only reply contains
no delimiter, yet the transform yields the empty sequence rather than a
single-element one. -/
theorem splitBullets_whitespace_counterexample :
    ¬ ("* ".toList <:+: (" " : String).data) ∧ (splitBullets " ").length ≠ 1 := by
  constructor
  · decide
  · decide

/-- C7: a rename to an empty or whitespace-only name is rejected with no
state change and nothing persisted; any name that is non-empty after
trimming replaces the targeted session's name and the list is
persisted. -/
theorem saveRename_guard (i t : String) (st : StoreState) :
    (strTrim t = "" → saveRename i t st = st)
    ∧ (strTrim t ≠ "" →
        (saveRename i t st).sessions
            = st.sessions.map (fun c => if c.id == i then { c with name := strTrim t } else c)
          ∧ (saveRename i t st).store = (saveRename i t st).sessions) := by
  constructor
  · intro h
    unfold saveRename
    rw [if_pos h]
  · intro h
    unfold saveRename
    rw [if_neg h]
    exact ⟨rfl, rfl⟩

/-- Witness for C7: a whitespace-only rename is dropped, a paddable one
is stored trimmed and persisted. -/
theorem saveRename_guard_witness :
    saveRename "1" "   " exState = exState
    ∧ (saveRename "1" " New name " exState).sessions
        = [{ id := "1", name := "New name", pinned := false, messages := [] }] := by
  refine ⟨(saveRename_guard "1" "   " exState).1 (by decide), ?_⟩
  have h := ((saveRename_guard "1" " New name " exState).2 (by decide)).1
  rw [h]
  decide

/-- C8: when a message is sent on a session whose name is still the
default placeholder, the session is renamed to the first six
space-separated words of the trimmed text. -/
theorem autoNameOnSend_renames (i q : String) (st : StoreState) (c : Session)
    (hfind : st.sessions.find? (fun s => s.id == i) = some c)
    (hname : c.name = "" ∨ c.name = "New Chat")
    (d : Session) (hd : d ∈ (autoNameOnSend i q st).sessions) (hdi : d.id = i) :
    d.name = shortName q := by
  unfold autoNameOnSend at hd
  simp only [hfind] at hd
  rw [if_pos hname] at hd
  simp only [List.mem_map] at hd
  obtain ⟨s, hs, hsd⟩ := hd
  by_cases hsi : (s.id == i) = true
  · rw [if_pos hsi] at hsd
    rw [← hsd]
  · rw [if_neg hsi] at hsd
    subst hsd
    exact absurd (by simp [hdi]) hsi

/-- A session still carrying the default placeholder name. -/
def exNewChat : Session := { id := "1", name := "New Chat", pinned := false, messages := [] }

/-- A store state holding only the placeholder session. -/
def exNewState : StoreState := { sessions := [exNewChat], store := [exNewChat] }

/-- Witness for C8: sending the seven-word text on a "New Chat" session
renames it to its first six words. -/
theorem autoNameOnSend_renames_witness :
    Session.name
        { id := "1", name := "Hello world foo bar baz qux", pinned := false, messages := [] }
      = shortName "Hello world foo bar baz qux extra" :=
  autoNameOnSend_renames "1" "Hello world foo bar baz qux extra" exNewState exNewChat
    (by decide) (Or.inr rfl)
    { id := "1", name := "Hello world foo bar baz qux", pinned := false, messages := [] }
    (by decide) rfl

/-- C9: an accepted rename stores the trimmed name: every session in the
result that carries the targeted id has exactly the trimmed new name. -/
theorem saveRename_stores_trimmed (i t : String) (st : StoreState) (h : strTrim t ≠ "")
    (c : Session) (hc : c ∈ (saveRename i t st).sessions) (hci : c.id = i) :
    c.name = strTrim t := by
  unfold saveRename at hc
  rw [if_neg h] at hc
  simp only [List.mem_map] at hc
  obtain ⟨s, hs, hsd⟩ := hc
  by_cases hsi : (s.id == i) = true
  · rw [if_pos hsi] at hsd
    rw [← hsd]
  · rw [if_neg hsi] at hsd
    subst hsd
    exact absurd (by simp [hci]) hsi

/-- Witness for C9: renaming with surrounding spaces stores the trimmed
name. -/
theorem saveRename_stores_trimmed_witness :
    Session.name { id := "1", name := "hi", pinned := false, messages := [] }
      = strTrim " hi " :=
  saveRename_stores_trimmed "1" " hi " exState (by decide)
    { id := "1", name := "hi", pinned := false, messages := [] } (by decide) rfl

/-- C10: reply extraction is total over parsed JSON: whenever the
candidate path is absent or the value found there is falsy, the
extraction yields the literal fallback reply. -/
theorem extractReply_fallback (data : JValue)
    (h : ∀ v, pathText data = some v → truthy v = false) :
    extractReply data = JValue.str "No response" := by
  unfold extractReply
  cases hp : pathText data with
  | none => rfl
  | some v =>
    show (if truthy v = true then v else JValue.str "No response") = JValue.str "No response"
    rw [h v hp]
    rfl

/-- A response whose candidate path ends in the empty (falsy) string. -/
def exResp : JValue :=
  JValue.obj [("candidates", JValue.arr [JValue.obj [("content", JValue.obj
    [("parts", JValue.arr [JValue.obj [("text", JValue.str "")]])])]])]

/-- Witness for C10: a present but empty reply text falls back to the
literal "No response". -/
theorem extractReply_fallback_witness : extractReply exResp = JValue.str "No response" :=
  extractReply_fallback exResp (fun v hv => by
    have hp : pathText exResp = some (JValue.str "") := rfl
    rw [hp] at hv
    cases hv
    rfl)
